import Mathlib

/-!
Verification of the LSB steganography tool (`stego_enhanced.py`).

Shallow embedding of the repository's single source file.  The carrier image
is modelled as its dimensions plus the flat list of 8-bit channel values in
the iteration order used by both `encode_message` and `decode_message`
(row-major, then column, then channel).  Python strings are modelled as lists
of Unicode code points; `str.encode()` / `bytes.decode('utf-8', errors='replace')`
are modelled by `utf8Encode` / `utf8DecodeReplace`; `hashlib.sha256(...).digest()`
is modelled by `sha256` below (full FIPS 180-4 compression on `Nat` words
reduced mod `2 ^ 32`).
-/

set_option maxRecDepth 10000

namespace Stego

/-! ## Bits and bytes

`format(byte, '08b')` turns a byte (< 256) into its 8 binary digits, most
significant first; `int(bits, 2)` folds binary digits back into a number.
-/

/-- The 8 binary digits of a byte, most significant first
(Python `format(byte, '08b')` for `b < 256`). -/
def byteBits (b : Nat) : List Nat :=
  [b / 128 % 2, b / 64 % 2, b / 32 % 2, b / 16 % 2,
   b / 8 % 2, b / 4 % 2, b / 2 % 2, b % 2]

/-- Fold a list of binary digits into a number, most significant first
(Python `int(bits, 2)`). -/
def bitsToByte (bits : List Nat) : Nat :=
  bits.foldl (fun a b => 2 * a + b) 0

/-- Group a bit list into bytes of 8 bits each, dropping a trailing partial
byte (the decoder's `if i + 8 <= len(message_bits)` guard). -/
def bitsToBytes : List Nat → List Nat
  | b0 :: b1 :: b2 :: b3 :: b4 :: b5 :: b6 :: b7 :: rest =>
      bitsToByte [b0, b1, b2, b3, b4, b5, b6, b7] :: bitsToBytes rest
  | _ => []

/-- Big-endian interpretation of a byte list (Python `int.from_bytes(..., 'big')`). -/
def fromBytesBE (bytes : List Nat) : Nat :=
  bytes.foldl (fun a b => 256 * a + b) 0

/-- Big-endian 4-byte encoding (Python `n.to_bytes(4, byteorder='big')`,
defined for `n < 2 ^ 32`). -/
def toBytesBE4 (n : Nat) : List Nat :=
  [n / 2 ^ 24 % 256, n / 2 ^ 16 % 256, n / 2 ^ 8 % 256, n % 256]

/-! ## SHA-256 (`hashlib.sha256(password.encode()).digest()`)

Words are `Nat`s kept below `2 ^ 32` by explicit reduction.
-/

/-- 32-bit right rotation. -/
def rotr (x n : Nat) : Nat := ((x >>> n) ||| (x <<< (32 - n))) % 2 ^ 32

/-- Bitwise complement within 32 bits. -/
def not32 (x : Nat) : Nat := x ^^^ (2 ^ 32 - 1)

/-- SHA-256 small sigma 0. -/
def ssig0 (x : Nat) : Nat := rotr x 7 ^^^ rotr x 18 ^^^ (x >>> 3)

/-- SHA-256 small sigma 1. -/
def ssig1 (x : Nat) : Nat := rotr x 17 ^^^ rotr x 19 ^^^ (x >>> 10)

/-- SHA-256 big sigma 0. -/
def bsig0 (x : Nat) : Nat := rotr x 2 ^^^ rotr x 13 ^^^ rotr x 22

/-- SHA-256 big sigma 1. -/
def bsig1 (x : Nat) : Nat := rotr x 6 ^^^ rotr x 11 ^^^ rotr x 25

/-- SHA-256 round constants. -/
def shaK : List Nat :=
  [1116352408, 1899447441, 3049323471, 3921009573, 961987163, 1508970993,
   2453635748, 2870763221, 3624381080, 310598401, 607225278, 1426881987,
   1925078388, 2162078206, 2614888103, 3248222580, 3835390401, 4022224774,
   264347078, 604807628, 770255983, 1249150122, 1555081692, 1996064986,
   2554220882, 2821834349, 2952996808, 3210313671, 3336571891, 3584528711,
   113926993, 338241895, 666307205, 773529912, 1294757372, 1396182291,
   1695183700, 1986661051, 2177026350, 2456956037, 2730485921, 2820302411,
   3259730800, 3345764771, 3516065817, 3600352804, 4094571909, 275423344,
   430227734, 506948616, 659060556, 883997877, 958139571, 1322822218,
   1537002063, 1747873779, 1955562222, 2024104815, 2227730452, 2361852424,
   2428436474, 2756734187, 3204031479, 3329325298]

/-- SHA-256 initial hash value. -/
def shaH0 : List Nat :=
  [1779033703, 3144134277, 1013904242, 2773480762,
   1359893119, 2600822924, 528734635, 1541459225]

/-- Pad a byte message per FIPS 180-4: append `0x80`, zeros, and the 64-bit
big-endian bit length, to a multiple of 64 bytes. -/
def shaPad (msg : List Nat) : List Nat :=
  let len := msg.length
  let zeros := (64 + 55 - len % 64) % 64
  msg ++ [0x80] ++ List.replicate zeros 0 ++
    ((List.range 8).map fun i => ((8 * len) >>> (8 * (7 - i))) % 256)

/-- Split a padded message into the sixteen 32-bit words of each 64-byte block. -/
def shaWords16 (block : List Nat) : List Nat :=
  (List.range 16).map fun i => fromBytesBE ((block.drop (4 * i)).take 4)

/-- Extend 16 message-schedule words to 64. -/
def shaSchedule (w : List Nat) : Nat → List Nat
  | 0 => w
  | n + 1 =>
      let w' := shaSchedule w n
      let t := w'.length
      w' ++ [(ssig1 (w'.getD (t - 2) 0) + w'.getD (t - 7) 0 +
              ssig0 (w'.getD (t - 15) 0) + w'.getD (t - 16) 0) % 2 ^ 32]

/-- One round of the SHA-256 compression function. -/
def shaRound (st : List Nat) (kw : Nat × Nat) : List Nat :=
  match st with
  | [a, b, c, d, e, f, g, h] =>
      let t1 := (h + bsig1 e + ((e &&& f) ^^^ (not32 e &&& g)) + kw.1 + kw.2) % 2 ^ 32
      let t2 := (bsig0 a + ((a &&& b) ^^^ (a &&& c) ^^^ (b &&& c))) % 2 ^ 32
      [(t1 + t2) % 2 ^ 32, a, b, c, (d + t1) % 2 ^ 32, e, f, g]
  | st => st

/-- Compress one 64-byte block into the running hash value. -/
def shaBlock (h : List Nat) (block : List Nat) : List Nat :=
  let w := shaSchedule (shaWords16 block) 48
  let st := (shaK.zip w).foldl shaRound h
  (h.zip st).map fun p => (p.1 + p.2) % 2 ^ 32

/-- Process a padded message 64 bytes at a time (one fuel unit per block). -/
def shaBlocksGo (h : List Nat) (msg : List Nat) : Nat → List Nat
  | 0 => h
  | n + 1 => shaBlocksGo (shaBlock h (msg.take 64)) (msg.drop 64) n

/-- Process a padded message 64 bytes at a time. -/
def shaBlocks (h : List Nat) (msg : List Nat) : List Nat :=
  shaBlocksGo h msg (msg.length / 64)

/-- SHA-256 digest of a byte list, as a list of 32 bytes. -/
def sha256 (msg : List Nat) : List Nat :=
  (shaBlocks shaH0 (shaPad msg)).flatMap toBytesBE4

/-! ## UTF-8

Python strings are modelled as lists of code points.  `utf8Encode` models
`str.encode()` for strings of Unicode scalar values (the only strings the
verified statements quantify over; `encode` raises on lone surrogates).
`utf8DecodeReplace` models `bytes.decode('utf-8', errors='replace')`: it is
total, emitting U+FFFD for each maximal ill-formed subsequence, exactly as
CPython's UTF-8 decoder does, and never fails.
-/

/-- Is a code point a Unicode scalar value (encodable by Python `str.encode()`)? -/
def ValidScalar (c : Nat) : Prop :=
  c < 0x110000 ∧ (c < 0xD800 ∨ 0xDFFF < c)

instance (c : Nat) : Decidable (ValidScalar c) := by
  unfold ValidScalar; infer_instance

/-- UTF-8 encoding of one scalar value. -/
def utf8EncodeChar (c : Nat) : List Nat :=
  if c < 0x80 then [c]
  else if c < 0x800 then [0xC0 + c / 64, 0x80 + c % 64]
  else if c < 0x10000 then [0xE0 + c / 4096, 0x80 + c / 64 % 64, 0x80 + c % 64]
  else [0xF0 + c / 262144, 0x80 + c / 4096 % 64, 0x80 + c / 64 % 64, 0x80 + c % 64]

/-- UTF-8 encoding of a string (list of scalar values), Python `str.encode()`. -/
def utf8Encode (s : List Nat) : List Nat := s.flatMap utf8EncodeChar

/-- Is `b` a UTF-8 continuation byte? -/
def isCont (b : Nat) : Bool := 0x80 ≤ b && b ≤ 0xBF

/-- Admissible first continuation byte after the 3-byte leader `b0`
(excludes overlong forms and surrogates, as CPython does). -/
def cont2ok (b0 b1 : Nat) : Bool :=
  if b0 = 0xE0 then 0xA0 ≤ b1 && b1 ≤ 0xBF
  else if b0 = 0xED then 0x80 ≤ b1 && b1 ≤ 0x9F
  else isCont b1

/-- Admissible first continuation byte after the 4-byte leader `b0`
(excludes overlong forms and code points above U+10FFFF). -/
def cont3ok (b0 b1 : Nat) : Bool :=
  if b0 = 0xF0 then 0x90 ≤ b1 && b1 ≤ 0xBF
  else if b0 = 0xF4 then 0x80 ≤ b1 && b1 ≤ 0x8F
  else isCont b1

/-- One step of UTF-8 decoding with replacement, given the first byte and the
bytes after it: the emitted code point (U+FFFD on any ill-formed sequence)
and how many bytes after the first are consumed.  On an ill-formed sequence
the maximal valid subpart is consumed and one U+FFFD emitted, as CPython's
`errors='replace'` handler does. -/
def utf8DecodeStep (b0 : Nat) (rest : List Nat) : Nat × Nat :=
  if b0 < 0x80 then (b0, 0)
  else if 0xC2 ≤ b0 ∧ b0 ≤ 0xDF then
    if 1 ≤ rest.length ∧ isCont (rest.getD 0 0) then
      ((b0 - 0xC0) * 64 + (rest.getD 0 0 - 0x80), 1)
    else (0xFFFD, 0)
  else if 0xE0 ≤ b0 ∧ b0 ≤ 0xEF then
    if 1 ≤ rest.length ∧ cont2ok b0 (rest.getD 0 0) then
      if 2 ≤ rest.length ∧ isCont (rest.getD 1 0) then
        ((b0 - 0xE0) * 4096 + (rest.getD 0 0 - 0x80) * 64 + (rest.getD 1 0 - 0x80), 2)
      else (0xFFFD, 1)
    else (0xFFFD, 0)
  else if 0xF0 ≤ b0 ∧ b0 ≤ 0xF4 then
    if 1 ≤ rest.length ∧ cont3ok b0 (rest.getD 0 0) then
      if 2 ≤ rest.length ∧ isCont (rest.getD 1 0) then
        if 3 ≤ rest.length ∧ isCont (rest.getD 2 0) then
          ((b0 - 0xF0) * 262144 + (rest.getD 0 0 - 0x80) * 4096 +
            (rest.getD 1 0 - 0x80) * 64 + (rest.getD 2 0 - 0x80), 3)
        else (0xFFFD, 2)
      else (0xFFFD, 1)
    else (0xFFFD, 0)
  else (0xFFFD, 0)

/-- Fuel-driven driver of the decoding loop; the fuel only needs to cover the
input length, and each step consumes at least the first byte. -/
def utf8DecodeGo : Nat → List Nat → List Nat
  | _, [] => []
  | 0, _ :: _ => []
  | fuel + 1, b0 :: rest =>
      (utf8DecodeStep b0 rest).1 ::
        utf8DecodeGo fuel (rest.drop (utf8DecodeStep b0 rest).2)

/-- `bytes.decode('utf-8', errors='replace')`: total decoding, one U+FFFD per
maximal ill-formed subsequence, never a failure. -/
def utf8DecodeReplace (l : List Nat) : List Nat := utf8DecodeGo l.length l

/-! ## The keystream cipher

Lines 44-47 and 179-182 of the source: byte `i` of the message is XORed with
`key[i % len(key)]`.
-/

/-- XOR a byte list against a cyclic key, starting at key index `i`. -/
def xorKeyFrom (key : List Nat) (i : Nat) : List Nat → List Nat
  | [] => []
  | b :: bs => (b ^^^ key.getD (i % key.length) 0) :: xorKeyFrom key (i + 1) bs

/-- The source's XOR loop: `out[i] = in[i] ^ key[i % len(key)]`. -/
def xorKey (key : List Nat) (msg : List Nat) : List Nat := xorKeyFrom key 0 msg

/-! ## Carrier model -/

/-- A carrier image: dimensions plus the flat list of channel values in
row-major, then column, then channel order — the exact iteration order of
both the encoder's and the decoder's triple loop. -/
structure Image where
  height : Nat
  width : Nat
  channels : Nat
  data : List Nat
  deriving DecidableEq, Repr

/-- Outcome of `encode_message`: success, the capacity-check failure
(line 36-38, its own printed diagnostic), or any other caught exception
(the generic handler at line 96-98). -/
inductive EncodeResult where
  | ok
  | capacityError
  | otherError
  deriving DecidableEq, Repr

/-- The magic bytes `b'STEGO'`. -/
def magicBytes : List Nat := [83, 84, 69, 71, 79]

/-- The embedding loop (lines 60-70): write each frame bit into the least
significant bit of the next channel value, leaving the rest of the carrier
untouched once the bits run out. -/
def writeBits : List Nat → List Nat → List Nat
  | [], _ => []
  | d :: ds, [] => d :: ds
  | d :: ds, b :: bs => ((d &&& 0xFE) ||| b) :: writeBits ds bs

/-- `encode_message` (lines 29-70), returning the outcome together with the
carrier state at function exit (the carrier is only mutated after the
capacity check, in the bit-writing loop). -/
def encode_message (img : Image) (message : List Nat) (password : List Nat) :
    EncodeResult × Image :=
  let max_bytes : Int := ((img.height * img.width * 3) / 8 : Nat) - 64
  if max_bytes < (message.length : Int) then (.capacityError, img)
  else
    let key := sha256 (utf8Encode password)
    let encrypted_message := xorKey key (utf8Encode message)
    if 2 ^ 32 ≤ encrypted_message.length then (.otherError, img)
    else
      let data_to_hide := magicBytes ++ toBytesBE4 encrypted_message.length ++
        encrypted_message
      let binary_data := data_to_hide.flatMap byteBits
      (.ok, { img with data := writeBits img.data binary_data })

/-! ## The decoder -/

/-- The 5 candidate magic bytes decoded from bits 0-39 of the accumulated
stream (lines 131-135). -/
def headerBytesOf (acc : List Nat) : List Nat :=
  (List.range 5).map fun j => bitsToByte ((acc.drop (8 * j)).take 8)

/-- The decoded 32-bit big-endian length field (bits 40-71, lines 142-150). -/
def msgLenOf (acc : List Nat) : Nat :=
  fromBytesBE ((List.range 4).map fun j => bitsToByte ((acc.drop (40 + 8 * j)).take 8))

/-- The parse attempted after each accumulated bit (lines 131-173): check
the magic bytes at bits 0-39, decode the length from bits 40-71, reject a
zero or oversized length and an insufficient accumulation, otherwise return
the ciphertext bytes from bits 72 onward.  This parse always looks at the
start of the accumulated stream: the source slices `extracted_bits` at the
absolute positions 0-40, 40-72 and 72 onward. -/
def tryParse (acc : List Nat) (total : Nat) : Option (List Nat) :=
  if headerBytesOf acc ≠ magicBytes then none
  else if msgLenOf acc = 0 ∨ total / 8 < msgLenOf acc then none
  else if acc.length < 72 + 8 * msgLenOf acc then none
  else some (bitsToBytes ((acc.drop 72).take (8 * msgLenOf acc)))

/-- The decoder's scan loop (lines 122-196): append the least significant
bit of each channel value in order; once at least 72 bits are accumulated,
attempt a parse after every new bit; on a successful parse decrypt and
return, otherwise keep accumulating; return `none` when the carrier is
exhausted. -/
def decodeScan (key : List Nat) (total : Nat) : List Nat → List Nat → Option (List Nat)
  | _, [] => none
  | acc, v :: rest =>
    let acc' := acc ++ [v &&& 1]
    if 72 ≤ acc'.length then
      match tryParse acc' total with
      | some enc => some (utf8DecodeReplace (xorKey key enc))
      | none => decodeScan key total acc' rest
    else decodeScan key total acc' rest

/-- `decode_message` (lines 100-200): scan the carrier's least significant
bits for a frame; on success decrypt with the password's SHA-256 keystream
and decode as UTF-8 with replacement (which never fails, so the result is
`some` whenever a frame parses, for any password). -/
def decode_message (img : Image) (password : List Nat) : Option (List Nat) :=
  decodeScan (sha256 (utf8Encode password))
    (img.height * img.width * img.channels) [] img.data

/-- The password-independent part of the scan: identical control flow to
`decodeScan`, returning the accumulated-bit count at which the frame parsed
together with the raw ciphertext bytes. -/
def scanStructure (total : Nat) : List Nat → List Nat → Option (Nat × List Nat)
  | _, [] => none
  | acc, v :: rest =>
    let acc' := acc ++ [v &&& 1]
    if 72 ≤ acc'.length then
      match tryParse acc' total with
      | some enc => some (acc'.length, enc)
      | none => scanStructure total acc' rest
    else scanStructure total acc' rest

/-- Modelled from the spec (section 4.2), for comparison with the code:
the spec's claimed capacity `floor(rows * cols * channelsPerPixel / 8) - 9`. -/
def specMaxPayloadBytes (img : Image) : Int :=
  (((img.height * img.width * img.channels) / 8 : Nat) : Int) - 9

/-- The code's capacity bound (line 32): `(height * width * 3) // 8 - 64`,
hard-coding 3 channels and reserving 64 bytes, compared against the
payload's character count. -/
def codeMaxBytes (img : Image) : Int :=
  (((img.height * img.width * 3) / 8 : Nat) : Int) - 64

/-- Decrypt-then-decode, the only password-dependent phase of extraction
(lines 175-187). -/
def decryptPhase (p : List Nat) (enc : List Nat) : List Nat :=
  utf8DecodeReplace (xorKey (sha256 (utf8Encode p)) enc)

/-- The spec's concrete scenario carrier: 10 x 10 x 3, all zero. -/
def c10img : Image := ⟨10, 10, 3, List.replicate 300 0⟩

/-- A 16 x 16 x 3 all-zero carrier, large enough for the code's own
capacity bound to accept a 2-character payload. -/
def c16img : Image := ⟨16, 16, 3, List.replicate 768 0⟩

/-- Code points of the scenario payload text. -/
def hiMsg : List Nat := [104, 105]

/-- Code points of the scenario password. -/
def pwText : List Nat := [112, 119]

/-- Code points of the scenario wrong password. -/
def xxText : List Nat := [120, 120]

/-- A carrier whose least-significant-bit stream is one non-magic bit
followed by the bit expansion of a structurally valid frame (magic bytes,
length 1, one ciphertext byte): a frame starting at bit offset 1. -/
def offset1img : Image :=
  ⟨27, 1, 3, 0 :: (magicBytes ++ toBytesBE4 1 ++ [0]).flatMap byteBits⟩

/-! ## Lemmas: bits and bytes -/

/-- Every binary digit produced by `byteBits` is 0 or 1. -/
theorem byteBits_lt_two {b x : Nat} (hx : x ∈ byteBits b) : x < 2 := by
  simp only [byteBits, List.mem_cons, List.mem_singleton, List.not_mem_nil, or_false]
    at hx
  rcases hx with h | h | h | h | h | h | h | h <;> subst h <;> exact Nat.mod_lt _ (by omega)

/-- `byteBits` always produces 8 digits. -/
theorem byteBits_length (b : Nat) : (byteBits b).length = 8 := rfl

/-- `int(format(b, '08b'), 2) = b` for a byte. -/
theorem bitsToByte_byteBits : ∀ b < 256, bitsToByte (byteBits b) = b := by decide

/-- A byte is below 256, so its digits fold back below 256. -/
theorem bitsToByte_lt : ∀ (l : List Nat), l.length = 8 → (∀ x ∈ l, x < 2) →
    bitsToByte l < 256 := by
  intro l hl hx
  match l, hl with
  | [a, b, c, d, e, f, g, h], _ =>
    simp only [List.mem_cons, List.not_mem_nil, or_false, forall_eq_or_imp,
      forall_eq] at hx
    simp only [bitsToByte, List.foldl]
    omega

/-- `format(int(bits, 2), '08b') = bits` for 8 binary digits. -/
theorem byteBits_bitsToByte : ∀ (l : List Nat), l.length = 8 → (∀ x ∈ l, x < 2) →
    byteBits (bitsToByte l) = l := by
  intro l hl hx
  match l, hl with
  | [a, b, c, d, e, f, g, h], _ =>
    simp only [List.mem_cons, List.not_mem_nil, or_false, forall_eq_or_imp,
      forall_eq] at hx
    simp only [bitsToByte, List.foldl, byteBits, List.cons.injEq, and_true]
    obtain ⟨ha, hb, hc, hd, he, hf, hg, hh⟩ := hx
    refine ⟨by omega, by omega, by omega, by omega, by omega, by omega, by omega,
      by omega⟩

/-- The bit expansion of a byte list has `8 * n` bits. -/
theorem length_flatMapBits (bs : List Nat) : (bs.flatMap byteBits).length = 8 * bs.length := by
  induction bs with
  | nil => rfl
  | cons b bs ih =>
    simp only [List.flatMap_cons, List.length_append, byteBits_length, ih,
      List.length_cons]
    omega

/-- Slicing the bit expansion of a byte list at byte boundaries recovers the
digits of the corresponding byte. -/
theorem flatMapBits_slice : ∀ (bs : List Nat) (j : Nat), j < bs.length →
    ((bs.flatMap byteBits).drop (8 * j)).take 8 = byteBits (bs.getD j 0) := by
  intro bs
  induction bs with
  | nil => intro j h; simp at h
  | cons b bs ih =>
    intro j hj
    cases j with
    | zero =>
      simp only [List.flatMap_cons, Nat.mul_zero, List.drop_zero, List.getD_cons_zero]
      rw [List.take_append_of_le_length (by rw [byteBits_length])]
      exact List.take_of_length_le (by rw [byteBits_length])
    | succ j =>
      simp only [List.flatMap_cons, List.getD_cons_succ]
      rw [show 8 * (j + 1) = (byteBits b).length + 8 * j by rw [byteBits_length]; omega,
        List.drop_append]
      exact ih j (by simpa using hj)

/-- Chunking the 8 digits of one byte off the front of a bit stream. -/
theorem bitsToBytes_byteBits_append (b : Nat) (rest : List Nat) :
    bitsToBytes (byteBits b ++ rest) = bitsToByte (byteBits b) :: bitsToBytes rest := rfl

/-- Re-chunking the bit expansion of a byte list recovers the bytes. -/
theorem bitsToBytes_flatMapBits : ∀ (bs : List Nat), (∀ b ∈ bs, b < 256) →
    bitsToBytes (bs.flatMap byteBits) = bs := by
  intro bs
  induction bs with
  | nil => intro _; rfl
  | cons b bs ih =>
    intro h
    rw [List.flatMap_cons, bitsToBytes_byteBits_append,
      bitsToByte_byteBits b (h b (List.mem_cons_self _ _)),
      ih fun x hx => h x (List.mem_cons_of_mem _ hx)]

/-- Big-endian 4-byte round trip. -/
theorem fromBytesBE_toBytesBE4 (n : Nat) (h : n < 2 ^ 32) :
    fromBytesBE (toBytesBE4 n) = n := by
  simp only [toBytesBE4, fromBytesBE, List.foldl]
  omega

/-! ## Lemmas: the write loop -/

/-- Writing the frame never changes the number of channel values. -/
theorem writeBits_length : ∀ (ds bs : List Nat), (writeBits ds bs).length = ds.length := by
  intro ds
  induction ds with
  | nil => intro bs; rfl
  | cons d ds ih =>
    intro bs
    cases bs with
    | nil => rfl
    | cons b bs => simp [writeBits, ih]

/-- Setting the least significant bit: the stored bit reads back. -/
theorem lsb_of_write (d b : Nat) (hb : b < 2) : ((d &&& 0xFE) ||| b) &&& 1 = b := by
  rw [Nat.and_distrib_right, Nat.and_assoc]
  have h1 : (0xFE : Nat) &&& 1 = 0 := rfl
  rw [h1, Nat.and_zero, Nat.zero_or, Nat.and_one_is_mod]
  omega

/-- Setting the least significant bit of a byte preserves the other bits. -/
theorem write_div_two : ∀ d < 256, ∀ b < 2, ((d &&& 0xFE) ||| b) / 2 = d / 2 := by decide

/-- Setting the least significant bit of a byte stays a byte. -/
theorem write_lt_256 : ∀ d < 256, ∀ b < 2, ((d &&& 0xFE) ||| b) < 256 := by decide

/-- Reading least significant bits back from the written carrier yields the
frame bits followed by the untouched tail's bits. -/
theorem writeBits_lsb : ∀ (ds bs : List Nat), (∀ b ∈ bs, b < 2) →
    bs.length ≤ ds.length →
    (writeBits ds bs).map (· &&& 1) = bs ++ (ds.drop bs.length).map (· &&& 1) := by
  intro ds
  induction ds with
  | nil =>
    intro bs _ hlen
    rw [List.length_nil, Nat.le_zero, List.length_eq_zero] at hlen
    subst hlen; rfl
  | cons d ds ih =>
    intro bs hb hlen
    cases bs with
    | nil => simp [writeBits]
    | cons b bs =>
      simp only [writeBits, List.map_cons, List.length_cons, List.drop_succ_cons,
        List.cons_append]
      rw [lsb_of_write d b (hb b (List.mem_cons_self _ _)),
        ih bs (fun x hx => hb x (List.mem_cons_of_mem _ hx)) (by simpa using hlen)]

/-- Channel values beyond the frame keep their original values. -/
theorem writeBits_getD_tail : ∀ (ds bs : List Nat) (i : Nat), bs.length ≤ i →
    (writeBits ds bs).getD i 0 = ds.getD i 0 := by
  intro ds
  induction ds with
  | nil => intro bs i _; rfl
  | cons d ds ih =>
    intro bs i hi
    cases bs with
    | nil => rfl
    | cons b bs =>
      cases i with
      | zero => simp at hi
      | succ i =>
        simp only [writeBits, List.getD_cons_succ]
        exact ih bs i (by simpa using hi)

/-- Every channel value is changed in its least significant bit at most. -/
theorem writeBits_getD_div_two : ∀ (ds bs : List Nat), (∀ d ∈ ds, d < 256) →
    (∀ b ∈ bs, b < 2) → ∀ i, (writeBits ds bs).getD i 0 / 2 = ds.getD i 0 / 2 := by
  intro ds
  induction ds with
  | nil => intro bs _ _ i; rfl
  | cons d ds ih =>
    intro bs hd hb i
    cases bs with
    | nil => rfl
    | cons b bs =>
      cases i with
      | zero =>
        simp only [writeBits, List.getD_cons_zero]
        exact write_div_two d (hd d (List.mem_cons_self _ _)) b
          (hb b (List.mem_cons_self _ _))
      | succ i =>
        simp only [writeBits, List.getD_cons_succ]
        exact ih bs (fun x hx => hd x (List.mem_cons_of_mem _ hx))
          (fun x hx => hb x (List.mem_cons_of_mem _ hx)) i

/-! ## Lemmas: the candidate parse -/

/-- A slice lying inside the first 72 bits is determined by the first 72 bits. -/
theorem slice_eq_of_take72 {a b : List Nat} (h : a.take 72 = b.take 72) {i k : Nat}
    (hik : i + k ≤ 72) : (a.drop i).take k = (b.drop i).take k := by
  have ha : (a.drop i).take k = ((a.take 72).drop i).take k := by
    rw [List.drop_take, List.take_take, Nat.min_eq_left (by omega)]
  have hb : (b.drop i).take k = ((b.take 72).drop i).take k := by
    rw [List.drop_take, List.take_take, Nat.min_eq_left (by omega)]
  rw [ha, hb, h]

/-- The candidate magic bytes depend only on the first 72 accumulated bits. -/
theorem headerBytesOf_congr {a b : List Nat} (h : a.take 72 = b.take 72) :
    headerBytesOf a = headerBytesOf b := by
  unfold headerBytesOf
  refine List.map_eq_map_iff.mpr fun j hj => ?_
  rw [List.mem_range] at hj
  rw [slice_eq_of_take72 h (by omega)]

/-- The decoded length field depends only on the first 72 accumulated bits. -/
theorem msgLenOf_congr {a b : List Nat} (h : a.take 72 = b.take 72) :
    msgLenOf a = msgLenOf b := by
  unfold msgLenOf
  congr 1
  refine List.map_eq_map_iff.mpr fun j hj => ?_
  rw [List.mem_range] at hj
  rw [slice_eq_of_take72 h (by omega)]

/-- On the bit expansion of a frame that starts with the magic bytes, the
candidate magic bytes parse back to the magic. -/
theorem headerBytesOf_frameBits (rest : List Nat) :
    headerBytesOf ((magicBytes ++ rest).flatMap byteBits) = magicBytes := by
  have hlen : ∀ j < 5, j < (magicBytes ++ rest).length := by
    intro j hj; simp only [List.length_append, magicBytes]; simp; omega
  unfold headerBytesOf
  rw [show (List.range 5) = [0, 1, 2, 3, 4] from rfl]
  simp only [List.map_cons, List.map_nil]
  rw [flatMapBits_slice _ 0 (hlen 0 (by omega)), flatMapBits_slice _ 1 (hlen 1 (by omega)),
    flatMapBits_slice _ 2 (hlen 2 (by omega)), flatMapBits_slice _ 3 (hlen 3 (by omega)),
    flatMapBits_slice _ 4 (hlen 4 (by omega))]
  simp only [magicBytes, List.cons_append, List.nil_append, List.getD_cons_zero,
    List.getD_cons_succ]
  rw [bitsToByte_byteBits 83 (by omega), bitsToByte_byteBits 84 (by omega),
    bitsToByte_byteBits 69 (by omega), bitsToByte_byteBits 71 (by omega),
    bitsToByte_byteBits 79 (by omega)]

/-- On the bit expansion of a well-formed frame, the length field parses back
to the ciphertext length. -/
theorem msgLenOf_frameBits (L : Nat) (hL : L < 2 ^ 32) (enc : List Nat) :
    msgLenOf ((magicBytes ++ (toBytesBE4 L ++ enc)).flatMap byteBits) = L := by
  have hlen : ∀ j < 9, j < (magicBytes ++ (toBytesBE4 L ++ enc)).length := by
    intro j hj
    simp only [List.length_append, magicBytes, toBytesBE4]
    simp; omega
  unfold msgLenOf
  rw [show (List.range 4) = [0, 1, 2, 3] from rfl]
  simp only [List.map_cons, List.map_nil]
  rw [show (40 + 8 * 0 : Nat) = 8 * 5 from rfl, show (40 + 8 * 1 : Nat) = 8 * 6 from rfl,
    show (40 + 8 * 2 : Nat) = 8 * 7 from rfl, show (40 + 8 * 3 : Nat) = 8 * 8 from rfl]
  rw [flatMapBits_slice _ 5 (hlen 5 (by omega)), flatMapBits_slice _ 6 (hlen 6 (by omega)),
    flatMapBits_slice _ 7 (hlen 7 (by omega)), flatMapBits_slice _ 8 (hlen 8 (by omega))]
  simp only [magicBytes, toBytesBE4, List.cons_append, List.nil_append,
    List.getD_cons_zero, List.getD_cons_succ]
  rw [bitsToByte_byteBits _ (Nat.mod_lt _ (by omega)),
    bitsToByte_byteBits _ (Nat.mod_lt _ (by omega)),
    bitsToByte_byteBits _ (Nat.mod_lt _ (by omega)),
    bitsToByte_byteBits _ (Nat.mod_lt _ (by omega))]
  exact fromBytesBE_toBytesBE4 L hL

/-- A parse with a zero decoded length always rejects (line 153). -/
theorem tryParse_none_of_len_zero {acc : List Nat} (total : Nat)
    (h : msgLenOf acc = 0) : tryParse acc total = none := by
  unfold tryParse
  split
  · rfl
  · rw [if_pos (Or.inl h)]

/-- A parse whose candidate magic bytes differ from the magic always rejects
(line 138). -/
theorem tryParse_none_of_header {acc : List Nat} (total : Nat)
    (h : headerBytesOf acc ≠ magicBytes) : tryParse acc total = none := by
  unfold tryParse
  rw [if_pos h]

/-! ## Lemmas: the scan -/

/-- If every attempted parse along the way rejects, the scan exhausts the
carrier and reports no message. -/
theorem decodeScan_none (key : List Nat) (total : Nat) :
    ∀ (rest acc : List Nat),
      (∀ k, 1 ≤ k → k ≤ rest.length → 72 ≤ acc.length + k →
        tryParse (acc ++ ((rest.take k).map (· &&& 1))) total = none) →
      decodeScan key total acc rest = none := by
  intro rest
  induction rest with
  | nil => intro acc _; rfl
  | cons v rest ih =>
    intro acc h
    have hnext : ∀ k, 1 ≤ k → k ≤ rest.length → 72 ≤ (acc ++ [v &&& 1]).length + k →
        tryParse ((acc ++ [v &&& 1]) ++ ((rest.take k).map (· &&& 1))) total = none := by
      intro k hk1 hk2 hk3
      have := h (k + 1) (by omega) (by simpa using Nat.succ_le_succ hk2)
        (by simp only [List.length_append, List.length_cons, List.length_nil] at hk3 ⊢; omega)
      simpa [List.take_succ_cons, List.append_assoc] using this
    by_cases hgate : 72 ≤ (acc ++ [v &&& 1]).length
    · have hp : tryParse (acc ++ [v &&& 1]) total = none := by
        have := h 1 (by omega) (by simp) (by
          simp only [List.length_append, List.length_cons, List.length_nil] at hgate ⊢
          omega)
        simpa using this
      show decodeScan key total acc (v :: rest) = none
      simp only [decodeScan, if_pos hgate, hp]
      exact ih _ hnext
    · show decodeScan key total acc (v :: rest) = none
      simp only [decodeScan, if_neg hgate]
      exact ih _ hnext

/-- Context for a successful scan: the first `72 + 8 * L` least significant
bits of the carrier are the bit expansion of a well-formed frame with
ciphertext length `L`. -/
structure FrameAt (data F : List Nat) (L total : Nat) : Prop where
  one_le : 1 ≤ L
  le_cap : L ≤ total / 8
  fits : 72 + 8 * L ≤ data.length
  take_eq : (data.map (· &&& 1)).take (72 + 8 * L) = F
  header : headerBytesOf F = magicBytes
  len : msgLenOf F = L

/-- Under `FrameAt`, a parse at an accumulation of `n` bits rejects before
`72 + 8 * L` bits and succeeds exactly at `72 + 8 * L`. -/
theorem tryParse_take {data F : List Nat} {L total : Nat} (ctx : FrameAt data F L total)
    (n : Nat) (h72 : 72 ≤ n) (hn : n ≤ 72 + 8 * L) :
    tryParse ((data.map (· &&& 1)).take n) total =
      if n < 72 + 8 * L then none else some (bitsToBytes ((F.drop 72).take (8 * L))) := by
  set stream := data.map (· &&& 1) with hs
  have hfits := ctx.fits
  have hone := ctx.one_le
  have hslen : stream.length = data.length := List.length_map _ _
  have ht72 : (stream.take n).take 72 = F.take 72 := by
    rw [← ctx.take_eq, List.take_take, List.take_take, Nat.min_eq_left h72,
      Nat.min_eq_left (by omega)]
  have hh : headerBytesOf (stream.take n) = magicBytes :=
    (headerBytesOf_congr ht72).trans ctx.header
  have hm : msgLenOf (stream.take n) = L := (msgLenOf_congr ht72).trans ctx.len
  have hacclen : (stream.take n).length = n := by
    rw [List.length_take, Nat.min_eq_left (by omega)]
  unfold tryParse
  rw [hh, hm, hacclen]
  rw [if_neg (show ¬ magicBytes ≠ magicBytes by simp)]
  rw [if_neg (show ¬ (L = 0 ∨ total / 8 < L) by
    push_neg
    exact ⟨by omega, ctx.le_cap⟩)]
  by_cases hlt : n < 72 + 8 * L
  · rw [if_pos hlt, if_pos hlt]
  · have hn' : n = 72 + 8 * L := by omega
    rw [if_neg hlt, if_neg hlt]
    subst hn'
    rw [hs, ctx.take_eq]

/-- Under `FrameAt`, the scan started at any point up to the success index
returns the decrypted frame ciphertext. -/
theorem decodeScan_reaches {data F : List Nat} {L total : Nat} (key : List Nat)
    (ctx : FrameAt data F L total) :
    ∀ n k, 1 ≤ n → k + n = 72 + 8 * L →
      decodeScan key total ((data.take k).map (· &&& 1)) (data.drop k) =
        some (utf8DecodeReplace (xorKey key (bitsToBytes ((F.drop 72).take (8 * L))))) := by
  have hfits := ctx.fits
  intro n
  induction n with
  | zero => intro k h1 _; omega
  | succ n ih =>
    intro k _ hk
    have hklt : k < data.length := by omega
    rw [List.drop_eq_getElem_cons hklt]
    have htk : data.take (k + 1) = data.take k ++ [data[k]] := by
      rw [← List.take_concat_get' data k hklt]
    have hacc : (data.take k).map (· &&& 1) ++ [data[k] &&& 1] =
        (data.take (k + 1)).map (· &&& 1) := by
      rw [htk, List.map_append]
      rfl
    have hlen1 : ((data.take k).map (· &&& 1) ++ [data[k] &&& 1]).length = k + 1 := by
      rw [hacc, List.length_map, List.length_take, Nat.min_eq_left (by omega)]
    have htake : (data.take (k + 1)).map (· &&& 1) = (data.map (· &&& 1)).take (k + 1) :=
      List.map_take _ _ _
    show decodeScan key total ((data.take k).map (· &&& 1)) (data[k] :: data.drop (k + 1)) = _
    cases n with
    | zero =>
      have hk1 : k + 1 = 72 + 8 * L := by omega
      simp only [decodeScan, hlen1]
      rw [if_pos (show 72 ≤ k + 1 by omega), hacc, htake,
        tryParse_take ctx (k + 1) (by omega) (by omega),
        if_neg (show ¬ k + 1 < 72 + 8 * L by omega)]
    | succ n =>
      have hk1 : k + 1 < 72 + 8 * L := by omega
      by_cases hgate : 72 ≤ k + 1
      · simp only [decodeScan, hlen1]
        rw [if_pos hgate, hacc, htake,
          tryParse_take ctx (k + 1) hgate (by omega)]
        rw [if_pos hk1, ← htake]
        exact ih (k + 1) (by omega) (by omega)
      · simp only [decodeScan, hlen1]
        rw [if_neg hgate, hacc]
        exact ih (k + 1) (by omega) (by omega)

/-! ## Lemmas: the keystream cipher -/

/-- The XOR loop preserves length. -/
theorem xorKeyFrom_length (key : List Nat) : ∀ (i : Nat) (bs : List Nat),
    (xorKeyFrom key i bs).length = bs.length := by
  intro i bs
  induction bs generalizing i with
  | nil => rfl
  | cons b bs ih => simp only [xorKeyFrom, List.length_cons, ih]

/-- The XOR loop preserves length. -/
theorem xorKey_length (key bs : List Nat) : (xorKey key bs).length = bs.length :=
  xorKeyFrom_length key 0 bs

/-- XORing against the same cyclic key twice is the identity. -/
theorem xorKeyFrom_involution (key : List Nat) : ∀ (i : Nat) (bs : List Nat),
    xorKeyFrom key i (xorKeyFrom key i bs) = bs := by
  intro i bs
  induction bs generalizing i with
  | nil => rfl
  | cons b bs ih =>
    simp only [xorKeyFrom, List.cons.injEq]
    exact ⟨by rw [Nat.xor_assoc, Nat.xor_self, Nat.xor_zero], ih (i + 1)⟩

/-- Decrypting an encryption returns the plaintext. -/
theorem xorKey_involution (key bs : List Nat) : xorKey key (xorKey key bs) = bs :=
  xorKeyFrom_involution key 0 bs

/-- The XOR loop maps bytes to bytes when the key is made of bytes. -/
theorem xorKeyFrom_lt_256 (key : List Nat) (hk : ∀ b ∈ key, b < 256) :
    ∀ (i : Nat) (bs : List Nat), (∀ b ∈ bs, b < 256) →
      ∀ x ∈ xorKeyFrom key i bs, x < 256 := by
  intro i bs
  induction bs generalizing i with
  | nil => intro _ x hx; simp [xorKeyFrom] at hx
  | cons b bs ih =>
    intro hb x hx
    simp only [xorKeyFrom, List.mem_cons] at hx
    rcases hx with hx | hx
    · subst hx
      have h1 : b < 2 ^ 8 := hb b (List.mem_cons_self _ _)
      have h2 : key.getD (i % key.length) 0 < 2 ^ 8 := by
        rcases Nat.lt_or_ge (i % key.length) key.length with h | h
        · rw [List.getD_eq_getElem key 0 h]
          exact hk _ (List.getElem_mem h)
        · rw [List.getD_eq_default _ _ h]; omega
      exact Nat.xor_lt_two_pow h1 h2
    · exact ih (i + 1) (fun y hy => hb y (List.mem_cons_of_mem _ hy)) x hx

/-- Every byte of a SHA-256 digest is below 256. -/
theorem sha256_lt_256 (msg : List Nat) : ∀ b ∈ sha256 msg, b < 256 := by
  intro b hb
  unfold sha256 at hb
  rw [List.mem_flatMap] at hb
  obtain ⟨w, _, hw⟩ := hb
  simp only [toBytesBE4, List.mem_cons, List.not_mem_nil, or_false] at hw
  rcases hw with h | h | h | h <;> subst h <;> exact Nat.mod_lt _ (by omega)

/-- Every byte produced by the UTF-8 encoder of a scalar-valued string is
below 256. -/
theorem utf8Encode_lt_256 (s : List Nat) (hs : ∀ c ∈ s, c < 0x110000) :
    ∀ b ∈ utf8Encode s, b < 256 := by
  intro b hb
  rw [utf8Encode, List.mem_flatMap] at hb
  obtain ⟨c, hc, hbc⟩ := hb
  have hcv := hs c hc
  unfold utf8EncodeChar at hbc
  split at hbc
  · simp at hbc; omega
  · split at hbc
    · simp at hbc; rcases hbc with h | h <;> omega
    · split at hbc
      · simp at hbc; rcases hbc with h | h | h <;> omega
      · simp at hbc; rcases hbc with h | h | h | h <;> omega

/-- Each scalar value takes at least one byte to encode. -/
theorem utf8Encode_length_ge (s : List Nat) : s.length ≤ (utf8Encode s).length := by
  induction s with
  | nil => exact Nat.zero_le _
  | cons c s ih =>
    rw [utf8Encode, List.flatMap_cons, List.length_append]
    have h1 : 1 ≤ (utf8EncodeChar c).length := by
      unfold utf8EncodeChar
      split
      · simp
      · split
        · simp
        · split <;> simp
    rw [utf8Encode] at ih
    simp only [List.length_cons]
    omega

/-! ## Lemmas: UTF-8 round trip -/

/-- The driver is fuel-independent once the fuel covers the input. -/
theorem utf8DecodeGo_congr : ∀ (fuel fuel' : Nat) (l : List Nat),
    l.length ≤ fuel → l.length ≤ fuel' → utf8DecodeGo fuel l = utf8DecodeGo fuel' l := by
  intro fuel
  induction fuel with
  | zero =>
    intro fuel' l h _
    rw [Nat.le_zero, List.length_eq_zero] at h
    subst h
    cases fuel' <;> rfl
  | succ fuel ih =>
    intro fuel' l h h'
    cases l with
    | nil => cases fuel' <;> rfl
    | cons b0 rest =>
      cases fuel' with
      | zero => simp at h'
      | succ fuel' =>
        simp only [utf8DecodeGo, List.cons.injEq, true_and]
        simp only [List.length_cons] at h h'
        refine ih fuel' _ ?_ ?_ <;> simp only [List.length_drop] <;> omega

/-- The one-step unfolding of `utf8DecodeReplace` on a nonempty input. -/
theorem utf8DecodeReplace_cons (b0 : Nat) (rest : List Nat) :
    utf8DecodeReplace (b0 :: rest) =
      (utf8DecodeStep b0 rest).1 ::
        utf8DecodeReplace (rest.drop (utf8DecodeStep b0 rest).2) := by
  show utf8DecodeGo (rest.length + 1) (b0 :: rest) = _
  simp only [utf8DecodeGo, List.cons.injEq, true_and]
  exact utf8DecodeGo_congr rest.length _ _
    (by simp only [List.length_drop]; omega) (le_refl _)

/-- Decoding past the well-formed encoding of one scalar value emits that
value and continues. -/
theorem utf8DecodeReplace_encodeChar (c : Nat) (hc : ValidScalar c) (t : List Nat) :
    utf8DecodeReplace (utf8EncodeChar c ++ t) = c :: utf8DecodeReplace t := by
  obtain ⟨hlt, hsur⟩ := hc
  by_cases h1 : c < 0x80
  · rw [utf8EncodeChar, if_pos h1]
    show utf8DecodeReplace (c :: t) = c :: utf8DecodeReplace t
    have hstep : utf8DecodeStep c t = (c, 0) := by
      unfold utf8DecodeStep
      rw [if_pos h1]
    rw [utf8DecodeReplace_cons, hstep]
    rfl
  by_cases h2 : c < 0x800
  · rw [utf8EncodeChar, if_neg h1, if_pos h2]
    show utf8DecodeReplace ((192 + c / 64) :: (128 + c % 64) :: t) = c :: utf8DecodeReplace t
    have hb1 : isCont (((128 + c % 64) :: t).getD 0 0) = true := by
      simp only [List.getD_cons_zero, isCont, Bool.and_eq_true, decide_eq_true_eq]
      omega
    have hstep : utf8DecodeStep (192 + c / 64) ((128 + c % 64) :: t) = (c, 1) := by
      unfold utf8DecodeStep
      rw [if_neg (by omega),
        if_pos (show 0xC2 ≤ 192 + c / 64 ∧ 192 + c / 64 ≤ 0xDF by omega),
        if_pos ⟨by simp, hb1⟩]
      simp only [List.getD_cons_zero, Prod.mk.injEq]
      exact ⟨by omega, by trivial⟩
    rw [utf8DecodeReplace_cons, hstep]
    rfl
  by_cases h3 : c < 0x10000
  · rw [utf8EncodeChar, if_neg h1, if_neg h2, if_pos h3]
    show utf8DecodeReplace ((224 + c / 4096) :: (128 + c / 64 % 64) :: (128 + c % 64) :: t) =
      c :: utf8DecodeReplace t
    have hb1 : cont2ok (224 + c / 4096)
        (((128 + c / 64 % 64) :: (128 + c % 64) :: t).getD 0 0) = true := by
      simp only [List.getD_cons_zero]
      unfold cont2ok
      split
      · next he =>
        have hc4096 : c / 4096 = 0 := by omega
        simp only [Bool.and_eq_true, decide_eq_true_eq]
        omega
      · split
        · next hne he =>
          have hc4096 : c / 4096 = 13 := by omega
          simp only [Bool.and_eq_true, decide_eq_true_eq]
          omega
        · simp only [isCont, Bool.and_eq_true, decide_eq_true_eq]
          omega
    have hb2 : isCont (((128 + c / 64 % 64) :: (128 + c % 64) :: t).getD 1 0) = true := by
      simp only [List.getD_cons_succ, List.getD_cons_zero, isCont, Bool.and_eq_true,
        decide_eq_true_eq]
      omega
    have hstep : utf8DecodeStep (224 + c / 4096)
        ((128 + c / 64 % 64) :: (128 + c % 64) :: t) = (c, 2) := by
      unfold utf8DecodeStep
      rw [if_neg (by omega),
        if_neg (show ¬ (0xC2 ≤ 224 + c / 4096 ∧ 224 + c / 4096 ≤ 0xDF) by omega),
        if_pos (show 0xE0 ≤ 224 + c / 4096 ∧ 224 + c / 4096 ≤ 0xEF by omega),
        if_pos ⟨by simp, hb1⟩, if_pos ⟨by simp, hb2⟩]
      simp only [List.getD_cons_succ, List.getD_cons_zero, Prod.mk.injEq]
      exact ⟨by omega, by trivial⟩
    rw [utf8DecodeReplace_cons, hstep]
    rfl
  · rw [utf8EncodeChar, if_neg h1, if_neg h2, if_neg h3]
    show utf8DecodeReplace ((240 + c / 262144) :: (128 + c / 4096 % 64) ::
        (128 + c / 64 % 64) :: (128 + c % 64) :: t) = c :: utf8DecodeReplace t
    have hb1 : cont3ok (240 + c / 262144)
        (((128 + c / 4096 % 64) :: (128 + c / 64 % 64) :: (128 + c % 64) :: t).getD 0 0) =
          true := by
      simp only [List.getD_cons_zero]
      unfold cont3ok
      split
      · next he =>
        have hc2 : c / 262144 = 0 := by omega
        simp only [Bool.and_eq_true, decide_eq_true_eq]
        omega
      · split
        · next hne he =>
          have hc2 : c / 262144 = 4 := by omega
          simp only [Bool.and_eq_true, decide_eq_true_eq]
          omega
        · simp only [isCont, Bool.and_eq_true, decide_eq_true_eq]
          omega
    have hb2 : isCont
        (((128 + c / 4096 % 64) :: (128 + c / 64 % 64) :: (128 + c % 64) :: t).getD 1 0) =
          true := by
      simp only [List.getD_cons_succ, List.getD_cons_zero, isCont, Bool.and_eq_true,
        decide_eq_true_eq]
      omega
    have hb3 : isCont
        (((128 + c / 4096 % 64) :: (128 + c / 64 % 64) :: (128 + c % 64) :: t).getD 2 0) =
          true := by
      simp only [List.getD_cons_succ, List.getD_cons_zero, isCont, Bool.and_eq_true,
        decide_eq_true_eq]
      omega
    have hstep : utf8DecodeStep (240 + c / 262144)
        ((128 + c / 4096 % 64) :: (128 + c / 64 % 64) :: (128 + c % 64) :: t) = (c, 3) := by
      unfold utf8DecodeStep
      rw [if_neg (by omega),
        if_neg (show ¬ (0xC2 ≤ 240 + c / 262144 ∧ 240 + c / 262144 ≤ 0xDF) by omega),
        if_neg (show ¬ (0xE0 ≤ 240 + c / 262144 ∧ 240 + c / 262144 ≤ 0xEF) by omega),
        if_pos (show 0xF0 ≤ 240 + c / 262144 ∧ 240 + c / 262144 ≤ 0xF4 by omega),
        if_pos ⟨by simp, hb1⟩, if_pos ⟨by simp, hb2⟩, if_pos ⟨by simp, hb3⟩]
      simp only [List.getD_cons_succ, List.getD_cons_zero, Prod.mk.injEq]
      exact ⟨by omega, by trivial⟩
    rw [utf8DecodeReplace_cons, hstep]
    rfl

/-- Decoding with replacement inverts encoding on scalar-valued strings:
round trip of `bytes.decode('utf-8', errors='replace')` after `str.encode()`. -/
theorem utf8DecodeReplace_utf8Encode (s : List Nat) (hs : ∀ c ∈ s, ValidScalar c) :
    utf8DecodeReplace (utf8Encode s) = s := by
  induction s with
  | nil => rfl
  | cons c s ih =>
    rw [utf8Encode, List.flatMap_cons]
    rw [utf8DecodeReplace_encodeChar c (hs c (List.mem_cons_self _ _))]
    rw [← utf8Encode, ih fun x hx => hs x (List.mem_cons_of_mem _ hx)]

/-! ## Lemmas: the encoder -/

/-- A least significant bit is 0 or 1. -/
theorem land_one_lt_two (x : Nat) : x &&& 1 < 2 := by
  rw [Nat.and_one_is_mod]
  exact Nat.mod_lt _ (by omega)

/-- `encode_message` fails with the capacity diagnostic exactly when the
payload's character count exceeds the code's capacity bound. -/
theorem encode_message_capacity_iff (img : Image) (m p : List Nat) :
    (encode_message img m p).1 = .capacityError ↔ codeMaxBytes img < (m.length : Int) := by
  unfold encode_message codeMaxBytes
  dsimp only
  split
  · next h => exact iff_of_true rfl h
  · next h =>
    split
    · exact iff_of_false (fun hh => nomatch hh) h
    · exact iff_of_false (fun hh => nomatch hh) h

/-- On the success path, `encode_message` writes the frame's bits over the
carrier's least significant bits and reports success. -/
theorem encode_message_ok (img : Image) (m p : List Nat)
    (hcap : ¬ codeMaxBytes img < (m.length : Int))
    (hlen : (xorKey (sha256 (utf8Encode p)) (utf8Encode m)).length < 2 ^ 32) :
    encode_message img m p =
      (.ok, ⟨img.height, img.width, img.channels, writeBits img.data
        ((magicBytes ++ toBytesBE4 (xorKey (sha256 (utf8Encode p)) (utf8Encode m)).length ++
          xorKey (sha256 (utf8Encode p)) (utf8Encode m)).flatMap byteBits)⟩) := by
  unfold codeMaxBytes at hcap
  unfold encode_message
  dsimp only
  rw [if_neg hcap, if_neg (by omega)]

/-- When the capacity check rejects, the function exits before the write
loop and the carrier state at exit is the input carrier. -/
theorem encode_message_capacity_unchanged (img : Image) (m p : List Nat)
    (h : (encode_message img m p).1 = .capacityError) :
    (encode_message img m p).2 = img := by
  unfold encode_message at h ⊢
  dsimp only at h ⊢
  split at h
  · next hc => rw [if_pos hc]
  · next hc =>
    rw [if_neg hc]
    split at h
    · next ho => rw [if_pos ho]
    · next ho =>
      rw [if_neg ho]
      exact absurd h (fun hh => nomatch hh)

/-! ## Lemmas: password independence of the scan -/

/-- The scan factors through the password-independent structural scan
followed by the password-dependent decrypt-and-decode phase. -/
theorem decodeScan_eq_scanStructure (p : List Nat) (total : Nat) :
    ∀ (rest acc : List Nat),
      decodeScan (sha256 (utf8Encode p)) total acc rest =
        Option.map (fun pr => decryptPhase p pr.2) (scanStructure total acc rest) := by
  intro rest
  induction rest with
  | nil => intro acc; rfl
  | cons v rest ih =>
    intro acc
    show decodeScan _ total acc (v :: rest) = _
    simp only [decodeScan, scanStructure]
    by_cases hgate : 72 ≤ (acc ++ [v &&& 1]).length
    · rw [if_pos hgate, if_pos hgate]
      cases htp : tryParse (acc ++ [v &&& 1]) total with
      | some enc => rfl
      | none => exact ih _
    · rw [if_neg hgate, if_neg hgate]
      exact ih _

/-- The scan reports no message as soon as every sufficiently long prefix of
the least-significant-bit stream fails the parse. -/
theorem decode_message_none_of_tryParse (img : Image) (p : List Nat)
    (h : ∀ k, 72 ≤ k → k ≤ img.data.length →
      tryParse ((img.data.map (· &&& 1)).take k)
        (img.height * img.width * img.channels) = none) :
    decode_message img p = none := by
  unfold decode_message
  apply decodeScan_none
  intro k h1 h2 h3
  simp only [List.length_nil, Nat.zero_add] at h3
  rw [List.nil_append, List.map_take]
  exact h k h3 h2

/-- Prefixes of at least 72 bits of a stream have the same candidate header
and length fields as the stream itself. -/
theorem headerBytesOf_take_stream {stream : List Nat} {k : Nat} (hk : 72 ≤ k) :
    headerBytesOf (stream.take k) = headerBytesOf stream ∧
      msgLenOf (stream.take k) = msgLenOf stream := by
  have h : (stream.take k).take 72 = stream.take 72 := by
    rw [List.take_take, Nat.min_eq_left hk]
  exact ⟨headerBytesOf_congr h, msgLenOf_congr h⟩

/-! ## Claim theorems -/

/-- C1 (amended): `encode_message` fails with `CapacityError` exactly when
the payload's character count exceeds the code's capacity bound
`(height * width * 3) // 8 - 64` (which also rejects everything, even the
empty payload, when that bound is negative); a payload within the bound is
accepted whenever its encoding fits in the 4-byte length field. -/
theorem c1_capacity (img : Image) (m p : List Nat) :
    ((encode_message img m p).1 = .capacityError ↔ codeMaxBytes img < (m.length : Int)) ∧
      ((m.length : Int) ≤ codeMaxBytes img → (utf8Encode m).length < 2 ^ 32 →
        (encode_message img m p).1 = .ok) := by
  refine ⟨encode_message_capacity_iff img m p, fun hcap hlen => ?_⟩
  rw [encode_message_ok img m p (not_lt.mpr hcap) (by rw [xorKey_length]; exact hlen)]

/-- Witness for C1 at a concrete input: on the 16 x 16 x 3 zero carrier a
2-character payload is within the code's bound and is accepted. -/
theorem c1_capacity_witness :
    ((hiMsg.length : Int) ≤ codeMaxBytes c16img ∧ (utf8Encode hiMsg).length < 2 ^ 32) ∧
      (encode_message c16img hiMsg pwText).1 = .ok :=
  ⟨⟨by decide, by decide⟩, (c1_capacity c16img hiMsg pwText).2 (by decide) (by decide)⟩

/-- Counterexample to C1 as stated: on the spec's own 10 x 10 x 3 scenario
carrier, the payload byte length 2 is within the spec's capacity
`300 / 8 - 9 = 28` and the carrier is not smaller than the header alone,
yet the code rejects with its capacity diagnostic (its actual bound is
`300 / 8 - 64 = -27`). -/
theorem c1_counterexample :
    ((utf8Encode hiMsg).length : Int) ≤ specMaxPayloadBytes c10img ∧
      0 ≤ specMaxPayloadBytes c10img ∧
      (encode_message c10img hiMsg pwText).1 = .capacityError := by decide

/-- C4 (amended): the decoder's parse is pinned to bit offset 0 of the
accumulated stream; whenever the first 40 least significant bits of the
carrier do not decode to the magic bytes, every parse rejects and extraction
returns the no-message outcome, even if a valid frame starts at a later bit
offset. -/
theorem c4_no_resync (img : Image) (p : List Nat)
    (h : headerBytesOf (img.data.map (· &&& 1)) ≠ magicBytes) :
    decode_message img p = none := by
  apply decode_message_none_of_tryParse
  intro k hk72 _
  apply tryParse_none_of_header
  rw [(headerBytesOf_take_stream hk72).1]
  exact h

/-- Witness for C4 at a concrete input: the offset-1 carrier's first 40 bits
miss the magic, and extraction reports no message. -/
theorem c4_no_resync_witness :
    headerBytesOf (offset1img.data.map (· &&& 1)) ≠ magicBytes ∧
      decode_message offset1img xxText = none :=
  ⟨by decide, c4_no_resync offset1img xxText (by decide)⟩

/-- Counterexample to C4 as stated: a carrier whose bit 0 does not match the
magic and whose bits 1-80 are exactly the bit expansion of a structurally
valid frame (magic, length 1, 1 ciphertext byte, fitting in the carrier);
the claim says extraction locates this frame, but the decoder returns the
no-message outcome. -/
theorem c4_counterexample :
    (offset1img.data.map (· &&& 1)).take 40 ≠ magicBytes.flatMap byteBits ∧
      (offset1img.data.map (· &&& 1)).drop 1 =
        (magicBytes ++ toBytesBE4 1 ++ [0]).flatMap byteBits ∧
      headerBytesOf ((offset1img.data.map (· &&& 1)).drop 1) = magicBytes ∧
      msgLenOf ((offset1img.data.map (· &&& 1)).drop 1) = 1 ∧
      decode_message offset1img pwText = none := by decide

/-- C6: with the parse pinned at the stream start (the only offset the code
ever parses at, offset 0), a candidate parse over `acc` accumulated bits of
a `total`-bit carrier rejects (and the scan moves on) exactly when the magic
bytes mismatch, or the decoded length is zero, or the length exceeds
`total / 8 - 9` so the remaining bits cannot hold the claimed payload, or
fewer than `length` payload bytes are accumulated so far. -/
theorem c6_parse_reject_iff (acc : List Nat) (total : Nat)
    (_h72 : 72 ≤ acc.length) (hle : acc.length ≤ total) :
    tryParse acc total = none ↔
      (headerBytesOf acc ≠ magicBytes ∨ msgLenOf acc = 0 ∨
        (total : Int) / 8 - 9 < (msgLenOf acc : Int) ∨
        acc.length < 72 + 8 * msgLenOf acc) := by
  unfold tryParse
  by_cases h1 : headerBytesOf acc ≠ magicBytes
  · rw [if_pos h1]
    exact iff_of_true rfl (Or.inl h1)
  · rw [if_neg h1]
    by_cases h2 : msgLenOf acc = 0 ∨ total / 8 < msgLenOf acc
    · rw [if_pos h2]
      refine iff_of_true rfl (Or.inr ?_)
      rcases h2 with h2 | h2
      · exact Or.inl h2
      · exact Or.inr (Or.inl (by omega))
    · rw [if_neg h2]
      push_neg at h2
      by_cases h3 : acc.length < 72 + 8 * msgLenOf acc
      · rw [if_pos h3]
        exact iff_of_true rfl (Or.inr (Or.inr (Or.inr h3)))
      · rw [if_neg h3]
        push_neg at h3
        refine iff_of_false (by simp) ?_
        rintro (hc | hc | hc | hc)
        · exact h1 hc
        · exact h2.1 hc
        · omega
        · omega

/-- Witness for C6 at a concrete input: 72 accumulated zero bits of a 72-bit
carrier reject (the magic mismatches), matching the claimed condition. -/
theorem c6_parse_reject_iff_witness :
    (72 ≤ (List.replicate 72 0 : List Nat).length ∧
        (List.replicate 72 0 : List Nat).length ≤ 72) ∧
      (tryParse (List.replicate 72 0) 72 = none ↔
        (headerBytesOf (List.replicate 72 0) ≠ magicBytes ∨
          msgLenOf (List.replicate 72 0) = 0 ∨
          (72 : Int) / 8 - 9 < (msgLenOf (List.replicate 72 0) : Int) ∨
          (List.replicate 72 0 : List Nat).length <
            72 + 8 * msgLenOf (List.replicate 72 0))) :=
  ⟨⟨by decide, by decide⟩,
    c6_parse_reject_iff (List.replicate 72 0) 72 (by decide) (by decide)⟩

/-- C7: when embed fails the capacity validation it modifies no channel
value — the check runs before any bit is written, so the carrier state at
exit equals the input carrier. -/
theorem c7_capacity_atomic (img : Image) (m p : List Nat)
    (h : (encode_message img m p).1 = .capacityError) :
    (encode_message img m p).2 = img :=
  encode_message_capacity_unchanged img m p h

/-- Witness for C7 at a concrete input: the 10 x 10 x 3 carrier rejects the
2-character payload and is returned unmodified. -/
theorem c7_capacity_atomic_witness :
    (encode_message c10img hiMsg pwText).1 = .capacityError ∧
      (encode_message c10img hiMsg pwText).2 = c10img :=
  ⟨by decide, c7_capacity_atomic c10img hiMsg pwText (by decide)⟩

/-- C9: the structural outcome of the extraction scan is identical for any
two passwords — extraction factors through the password-independent
structural scan (`scanStructure`, which fixes whether and at which
accumulated-bit count a frame parses, and its raw ciphertext bytes),
followed by the password-dependent decrypt-and-decode phase, which always
produces `some` text; hence whether a message is reported does not depend
on the password. -/
theorem c9_password_noninterference (img : Image) (p1 p2 : List Nat) :
    decode_message img p1 =
      Option.map (fun pr => decryptPhase p1 pr.2)
        (scanStructure (img.height * img.width * img.channels) [] img.data) ∧
      (decode_message img p1).isSome = (decode_message img p2).isSome := by
  have h1 := decodeScan_eq_scanStructure p1 (img.height * img.width * img.channels)
    img.data []
  have h2 := decodeScan_eq_scanStructure p2 (img.height * img.width * img.channels)
    img.data []
  refine ⟨h1, ?_⟩
  unfold decode_message
  rw [h1, h2, Option.isSome_map', Option.isSome_map']

/-- C10: embedding the empty message into a carrier accepted by the capacity
check succeeds and writes a frame whose length field is 0 (bits 40-71 of the
stream), but the scan rejects every parse whose decoded length is zero, so
extraction returns the no-message outcome for any password: the round trip
fails for the empty payload. -/
theorem c10_empty_payload (img : Image) (p p' : List Nat)
    (hwf : img.data.length = img.height * img.width * img.channels)
    (hcap : 0 ≤ codeMaxBytes img) :
    (encode_message img [] p).1 = .ok ∧
      (72 ≤ img.data.length →
        ((encode_message img [] p).2.data.map (· &&& 1)).take 72 =
          (magicBytes ++ toBytesBE4 0).flatMap byteBits) ∧
      decode_message (encode_message img [] p).2 p' = none := by
  have henc : xorKey (sha256 (utf8Encode p)) (utf8Encode []) = [] := rfl
  have hok := encode_message_ok img [] p
    (by simpa using not_lt.mpr hcap) (by rw [henc]; decide)
  rw [hok]
  simp only [henc, List.length_nil, List.append_nil]
  set bits0 := (magicBytes ++ toBytesBE4 0).flatMap byteBits with hbits0
  have hbits0lt : ∀ b ∈ bits0, b < 2 := by
    intro b hb
    rw [hbits0, List.mem_flatMap] at hb
    obtain ⟨x, _, hbx⟩ := hb
    exact byteBits_lt_two hbx
  have hbits0len : bits0.length = 72 := by
    rw [hbits0, length_flatMapBits]
    rfl
  have hstream : 72 ≤ img.data.length →
      ((writeBits img.data bits0).map (· &&& 1)).take 72 = bits0 := by
    intro h72
    rw [writeBits_lsb img.data bits0 hbits0lt (by omega),
      show (72 : Nat) = bits0.length from hbits0len.symm, List.take_left]
  refine ⟨trivial, hstream, ?_⟩
  apply decode_message_none_of_tryParse
  intro k hk72 hklen
  apply tryParse_none_of_len_zero
  rw [(headerBytesOf_take_stream hk72).2]
  have h72 : 72 ≤ img.data.length := by
    have := writeBits_length img.data bits0
    simp only at hklen
    omega
  have htake : ((writeBits img.data bits0).map (· &&& 1)).take 72 = bits0.take 72 := by
    rw [hstream h72, List.take_of_length_le (by omega)]
  rw [msgLenOf_congr htake]
  have hsplit : magicBytes ++ toBytesBE4 0 = magicBytes ++ (toBytesBE4 0 ++ []) := by
    rw [List.append_nil]
  rw [hbits0, hsplit]
  exact msgLenOf_frameBits 0 (by decide) []

/-- Witness for C10 at a concrete input: the 16 x 16 x 3 carrier accepts the
empty payload, and extraction afterwards reports no message. -/
theorem c10_empty_payload_witness :
    (c16img.data.length = c16img.height * c16img.width * c16img.channels ∧
        0 ≤ codeMaxBytes c16img) ∧
      (encode_message c16img [] pwText).1 = .ok ∧
      decode_message (encode_message c16img [] pwText).2 xxText = none :=
  ⟨⟨by decide, by decide⟩,
    (c10_empty_payload c16img pwText xxText (by decide) (by decide)).1,
    (c10_empty_payload c16img pwText xxText (by decide) (by decide)).2.2⟩

/-- C2 (amended): the round trip holds for every carrier, password and
nonempty scalar-valued payload that the code actually accepts and fully
embeds: character count within the code's capacity bound, whole frame within
the carrier's channel count, and the ciphertext length within the 4-byte
length field.  Extraction with the same password returns exactly the
payload text. -/
theorem c2_round_trip (img : Image) (m p : List Nat)
    (hval : ∀ c ∈ m, ValidScalar c)
    (hne : m ≠ [])
    (hcap : (m.length : Int) ≤ codeMaxBytes img)
    (hwf : img.data.length = img.height * img.width * img.channels)
    (hfits : 72 + 8 * (utf8Encode m).length ≤ img.data.length)
    (hsmall : (utf8Encode m).length < 2 ^ 32) :
    decode_message (encode_message img m p).2 p = some m := by
  set key := sha256 (utf8Encode p) with hkey
  set mb := utf8Encode m with hmb
  set enc := xorKey key mb with henc
  have hlenenc : enc.length = mb.length := xorKey_length key mb
  have hok := encode_message_ok img m p (not_lt.mpr hcap) (by rw [hlenenc]; exact hsmall)
  rw [hok]
  set L := enc.length with hLdef
  set frame := magicBytes ++ toBytesBE4 L ++ enc with hframe
  set bits := frame.flatMap byteBits with hbits
  have hframelen : frame.length = 9 + L := by
    rw [hframe]
    simp only [List.length_append, List.length_cons, List.length_nil]
    rfl
  have hbitslen : bits.length = 72 + 8 * L := by
    rw [hbits, length_flatMapBits, hframelen]
    omega
  have hLmb : L = (utf8Encode m).length := hlenenc
  have hfits2 : 72 + 8 * (utf8Encode m).length ≤ img.data.length := hfits
  have hmblt : ∀ b ∈ mb, b < 256 :=
    utf8Encode_lt_256 m fun c hc => (hval c hc).1
  have henclt : ∀ b ∈ enc, b < 256 :=
    xorKeyFrom_lt_256 key (sha256_lt_256 _) 0 mb hmblt
  have hbitslt : ∀ b ∈ bits, b < 2 := by
    intro b hb
    rw [hbits, List.mem_flatMap] at hb
    obtain ⟨x, _, hbx⟩ := hb
    exact byteBits_lt_two hbx
  have hLpos : 1 ≤ L := by
    have h1 : 1 ≤ m.length := by
      rcases m with _ | ⟨c, m'⟩
      · exact absurd rfl hne
      · simp
    have h2 := utf8Encode_length_ge m
    omega
  have hfits' : 72 + 8 * L ≤ img.data.length := by omega
  have hassoc : frame = magicBytes ++ (toBytesBE4 L ++ enc) := by
    rw [hframe, List.append_assoc]
  have hdata' : (writeBits img.data bits).length = img.data.length :=
    writeBits_length img.data bits
  have ctx : FrameAt (writeBits img.data bits) bits L
      (img.height * img.width * img.channels) := by
    refine ⟨hLpos, by omega, by omega, ?_, ?_, ?_⟩
    · rw [writeBits_lsb img.data bits hbitslt (by omega), ← hbitslen, List.take_left]
    · rw [hbits, hassoc]
      exact headerBytesOf_frameBits _
    · rw [hbits, hassoc]
      exact msgLenOf_frameBits L (by omega) enc
  have hscan := decodeScan_reaches key ctx (72 + 8 * L) 0 (by omega) (by omega)
  show decodeScan key _ [] (writeBits img.data bits) = some m
  have hstart : decodeScan key (img.height * img.width * img.channels)
      (((writeBits img.data bits).take 0).map (· &&& 1))
      ((writeBits img.data bits).drop 0) =
        decodeScan key (img.height * img.width * img.channels) []
          (writeBits img.data bits) := rfl
  rw [← hstart, hscan]
  have h72eq : ((magicBytes ++ toBytesBE4 L).flatMap byteBits).length = 72 := by
    rw [length_flatMapBits]
    rfl
  have hdl := List.drop_left ((magicBytes ++ toBytesBE4 L).flatMap byteBits)
    (enc.flatMap byteBits)
  rw [h72eq] at hdl
  have hdrop : (bits.drop 72).take (8 * L) = enc.flatMap byteBits := by
    rw [hbits, hframe, List.flatMap_append, hdl,
      List.take_of_length_le (by rw [length_flatMapBits])]
  rw [hdrop, bitsToBytes_flatMapBits enc henclt, henc, xorKey_involution, hmb,
    utf8DecodeReplace_utf8Encode m hval]

/-- C8: after a successful embed of the 9 + len(ciphertext)-byte frame,
every channel value at a position at or beyond bit `8 * (9 + len)` keeps
its original value, and every channel value differs from its original at
most in its least significant bit (the carrier invariant: channel values
are bytes). -/
theorem c8_frame_effect (img : Image) (m p : List Nat)
    (hbyte : ∀ v ∈ img.data, v < 256)
    (hok : (encode_message img m p).1 = .ok) :
    (∀ i, 8 * (9 + (xorKey (sha256 (utf8Encode p)) (utf8Encode m)).length) ≤ i →
        (encode_message img m p).2.data.getD i 0 = img.data.getD i 0) ∧
      (∀ i, (encode_message img m p).2.data.getD i 0 / 2 = img.data.getD i 0 / 2) := by
  have hcap : ¬ codeMaxBytes img < (m.length : Int) := by
    intro hc
    have h1 := (encode_message_capacity_iff img m p).mpr hc
    rw [hok] at h1
    exact nomatch h1
  have hcap2 : ¬ ((((img.height * img.width * 3) / 8 : Nat) : Int) - 64 <
      (m.length : Int)) := hcap
  have hover : (xorKey (sha256 (utf8Encode p)) (utf8Encode m)).length < 2 ^ 32 := by
    by_contra hov
    push_neg at hov
    unfold encode_message at hok
    dsimp only at hok
    rw [if_neg hcap2, if_pos hov] at hok
    exact nomatch hok
  rw [encode_message_ok img m p hcap hover]
  set enc := xorKey (sha256 (utf8Encode p)) (utf8Encode m) with hencdef
  set bits := (magicBytes ++ toBytesBE4 enc.length ++ enc).flatMap byteBits with hbitsdef
  have hbitslt : ∀ b ∈ bits, b < 2 := by
    intro b hb
    rw [hbitsdef, List.mem_flatMap] at hb
    obtain ⟨x, _, hbx⟩ := hb
    exact byteBits_lt_two hbx
  have hbitslen : bits.length = 8 * (9 + enc.length) := by
    rw [hbitsdef, length_flatMapBits]
    simp only [List.length_append]
    have h5 : magicBytes.length = 5 := rfl
    have h4 : (toBytesBE4 enc.length).length = 4 := rfl
    omega
  refine ⟨fun i hi => ?_, fun i => ?_⟩
  · exact writeBits_getD_tail img.data bits i (by omega)
  · exact writeBits_getD_div_two img.data bits hbyte hbitslt i

/-- Witness for C8 at a concrete input: the 16 x 16 x 3 zero carrier, whose
values are bytes, accepts `hi`, and afterwards every channel value agrees
with its original above the least significant bit. -/
theorem c8_frame_effect_witness :
    ((∀ v ∈ c16img.data, v < 256) ∧ (encode_message c16img hiMsg pwText).1 = .ok) ∧
      (∀ i, (encode_message c16img hiMsg pwText).2.data.getD i 0 / 2 =
        c16img.data.getD i 0 / 2) :=
  ⟨⟨fun v hv => by rw [List.eq_of_mem_replicate hv]; omega, by decide⟩,
    (c8_frame_effect c16img hiMsg pwText
      (fun v hv => by rw [List.eq_of_mem_replicate hv]; omega) (by decide)).2⟩

/-- Witness for C2 at a concrete input: the 16 x 16 x 3 zero carrier with
payload `hi` and password `pw` round-trips. -/
theorem c2_round_trip_witness :
    ((∀ c ∈ hiMsg, ValidScalar c) ∧ hiMsg ≠ [] ∧
        (hiMsg.length : Int) ≤ codeMaxBytes c16img ∧
        c16img.data.length = c16img.height * c16img.width * c16img.channels ∧
        72 + 8 * (utf8Encode hiMsg).length ≤ c16img.data.length ∧
        (utf8Encode hiMsg).length < 2 ^ 32) ∧
      decode_message (encode_message c16img hiMsg pwText).2 pwText = some hiMsg :=
  ⟨⟨by decide, by decide, by decide, by decide, by decide, by decide⟩,
    c2_round_trip c16img hiMsg pwText (by decide) (by decide) (by decide) (by decide)
      (by decide) (by decide)⟩

/-- Counterexample to C2 as stated: on the 10 x 10 x 3 carrier the payload
`hi` is within the spec's capacity bound (2 of 28 bytes), yet embedding
fails outright (the code's actual bound is negative), no embedded carrier is
produced, and extraction from the carrier state at exit does not return the
payload. -/
theorem c2_counterexample :
    ((utf8Encode hiMsg).length : Int) ≤ specMaxPayloadBytes c10img ∧
      (encode_message c10img hiMsg pwText).1 ≠ .ok ∧
      decode_message (encode_message c10img hiMsg pwText).2 pwText ≠ some hiMsg := by
  decide

/-- C3 (evaluation of the code bug): extracting with a wrong password
returns a successfully decoded garbage string — not the no-message outcome
and not a wrong-password diagnostic — because line 186 decodes with
`errors='replace'`, which never raises, leaving the code's
`UnicodeDecodeError` branch (lines 188-192, the "incorrect password" path)
unreachable.  At the fixed vectors the garbage is `[5, 126]`, distinct from
the embedded payload. -/
theorem c3_wrong_password_bug :
    ∃ s, decode_message (encode_message c16img hiMsg pwText).2 xxText = some s ∧
      s ≠ hiMsg ∧ s ≠ [] :=
  ⟨[5, 126], by decide, by decide, by decide⟩

/-- Counterexample to C5 as stated: on the 10 x 10 x 3 all-zero carrier the
embed of `hi` with password `pw` does not succeed — the code's capacity
bound there is `300 / 8 - 64 = -27`, so it fails with the capacity
diagnostic. -/
theorem c5_counterexample :
    (encode_message c10img hiMsg pwText).1 = .capacityError ∧
      (encode_message c10img hiMsg pwText).1 ≠ .ok := by decide

/-- C5 (amended): the scenario holds on a 16 x 16 x 3 all-zero carrier
(past the code's 64-byte reserve): embed of `hi` with `pw` succeeds, bits
0-71 of the least-significant-bit plane encode the magic plus length 2,
bits 72-87 encode the 2 ciphertext bytes, extraction with `pw` returns
`hi`, and extraction with the wrong password `xx` returns a successfully
decoded garbage string different from `hi` (never the wrong-password or
no-message outcome). -/
theorem c5_scenario_amended :
    (encode_message c16img hiMsg pwText).1 = .ok ∧
      ((encode_message c16img hiMsg pwText).2.data.map (· &&& 1)).take 72 =
        (magicBytes ++ toBytesBE4 2).flatMap byteBits ∧
      (((encode_message c16img hiMsg pwText).2.data.map (· &&& 1)).drop 72).take 16 =
        (xorKey (sha256 (utf8Encode pwText)) (utf8Encode hiMsg)).flatMap byteBits ∧
      decode_message (encode_message c16img hiMsg pwText).2 pwText = some hiMsg ∧
      ∃ s, decode_message (encode_message c16img hiMsg pwText).2 xxText = some s ∧
        s ≠ hiMsg :=
  ⟨by decide, by decide, by decide, by decide, ⟨[5, 126], by decide, by decide⟩⟩

end Stego
